import Mathlib

/-!
# Worker start-up hook and word extraction

A verification development for two source files:

* `pkg/beam/core/runtime/harness/init/init.go` : the function `hook`, run at
  start-up, which starts the harness when the binary is in worker mode;
* `examples/complete/autocomplete/autocomplete.go` : the function `extractFn`,
  which emits the words of a line found by the regular expression `wordRE`.

`hook` is embedded as a deterministic step machine: one step per statement of
the source, each step appending the calls it makes to an event trace.  The
callees living outside the file (`json.Unmarshal`, `harness.Main`) are
parameters of the machine (`World`).

`extractFn` is embedded over a small model of the regular-expression library:
a syntax tree for the operators the pattern uses, a backtracking matcher that
lists the possible matches in priority order (leftmost-first semantics), and
the `FindAllString` loop over match positions.
-/

namespace Beam

/-! ## Part 1: `hook` (init.go) -/

/-- The five command-line flags of init.go, lines 21-28, after `flag.Parse`. -/
structure Flags where
  worker : Bool
  loggingEndpoint : String
  controlEndpoint : String
  persistDir : String
  options : String
  deriving DecidableEq, Repr

/-- The three ways the call `harness.Main(ctx, ...)` can come back: a nil
error, a non-nil error (its text), or a panic.  The value of a panic is either
nil (`panic(nil)`, here `none`) or a non-nil value (here `some` of its `%v`
text); `recover()` hands the handler this value as it is, the semantics of Go
before version 1.21, for which the code was written. -/
inductive MainResult where
  | ok
  | error (err : String)
  | panic (r : Option String)
  deriving DecidableEq, Repr

/-- The calls `hook` makes that are visible outside it, in program order.
`ρ` is the type `runtime.RawOptions`, declared outside the file. -/
inductive Event (ρ : Type) where
  /-- The call `json.Unmarshal([]byte(*options), &opt)` on the given text. -/
  | unmarshal (data : String)
  /-- The call `runtime.GlobalOptions.Import(opt.Options)`. -/
  | importOptions (opt : ρ)
  /-- The call `harness.Main(ctx, args...)`: the arguments after the context. -/
  | harnessMain (args : List String)
  /-- A write of the text to `os.Stderr` by `fmt.Fprintf` or `fmt.Fprint`. -/
  | stderr (msg : String)
  /-- The call `debug.PrintStack()`. -/
  | printStack
  /-- The call `time.Sleep(d)`, with `d` in hours. -/
  | sleep (hours : Nat)
  deriving DecidableEq, Repr

/-- The type `wrapper` of init.go, lines 52-54: the JSON object whose field
"options" holds the raw options. -/
structure wrapper (ρ : Type) where
  Options : ρ
  deriving DecidableEq, Repr

/-- The callees of `hook` that live outside the file.  `unmarshal` is
`json.Unmarshal` into a `wrapper` (the decoded value, or the error text).
`harnessMain` is `harness.Main`; its result may depend on everything that
happened before the call (for instance on the imported options) and on its
arguments. -/
structure World (ρ : Type) where
  unmarshal : String → Except String (wrapper ρ)
  harnessMain : List (Event ρ) → List String → MainResult

/-- Program points of `hook`, init.go lines 57-98, and its ways of ending. -/
inductive Pc (ρ : Type) where
  /-- Line 58: the test of the worker flag. -/
  | entry
  /-- Lines 68-70: the test of the options flag and the call to unmarshal. -/
  | checkOptions
  /-- Line 71: the diagnostic for options that do not parse. -/
  | parseFailed (err : String)
  /-- Line 74: the import of the parsed options. -/
  | doImport (opt : wrapper ρ)
  /-- Lines 77-83: the defer statement registering the recover handler. -/
  | deferRecover
  /-- Line 88: the call of harness.Main. -/
  | callMain
  /-- Line 89: the diagnostic for an error returned by harness.Main. -/
  | mainFailed (err : String)
  /-- Line 78: the deferred handler has called `recover()`, which stopped the
  panic and returned its value `r`; the test `r != nil` is next. -/
  | recovered (r : Option String)
  /-- Line 79: the diagnostic for a panic whose value is not nil. -/
  | panicReport (r : String)
  /-- Line 80: the stack dump of the deferred handler. -/
  | dumpStack
  /-- Lines 72, 81, 90: the call `os.Exit(code)`. -/
  | exiting (code : Nat)
  /-- Line 93: the success message. -/
  | success
  /-- Lines 94-97: the loop around `time.Sleep(time.Hour)`. -/
  | idle
  /-- Terminal: `hook` has returned to its caller. -/
  | returned
  /-- Terminal: the process has terminated with the given status. -/
  | exited (code : Nat)
  /-- Terminal: a panic left `hook` and unwinds into its caller. -/
  | panicked (r : Option String)
  deriving DecidableEq, Repr

/-- A configuration of the machine: the program point, whether the deferred
recover handler is registered, and the calls made so far (oldest first). -/
structure Config (ρ : Type) where
  pc : Pc ρ
  deferred : Bool
  out : List (Event ρ)
  deriving DecidableEq, Repr

/-- The configuration in which `hook` is entered. -/
def Config.init (ρ : Type) : Config ρ := ⟨Pc.entry, false, []⟩

/-- The text written by line 71. -/
def parseFailedMsg (options err : String) : String :=
  "Failed to parse pipeline options '" ++ options ++ "': " ++ err

/-- The text written by line 79. -/
def workerPanicMsg (r : String) : String := "Worker panic: " ++ r

/-- The text written by line 89. -/
def workerFailedMsg (err : String) : String := "Worker failed: " ++ err

/-- The text written by line 93. -/
def workerSuccessMsg : String := "Worker exited successfully!"

/-- One statement of `hook`. -/
def step {ρ : Type} (w : World ρ) (f : Flags) (c : Config ρ) : Config ρ :=
  match c.pc with
  | Pc.entry =>
      if !f.worker then { c with pc := Pc.returned }
      else { c with pc := Pc.checkOptions }
  | Pc.checkOptions =>
      if f.options ≠ "" then
        match w.unmarshal f.options with
        | Except.error err =>
            { c with pc := Pc.parseFailed err, out := c.out ++ [Event.unmarshal f.options] }
        | Except.ok opt =>
            { c with pc := Pc.doImport opt, out := c.out ++ [Event.unmarshal f.options] }
      else { c with pc := Pc.deferRecover }
  | Pc.parseFailed err =>
      { c with pc := Pc.exiting 1,
               out := c.out ++ [Event.stderr (parseFailedMsg f.options err)] }
  | Pc.doImport opt =>
      { c with pc := Pc.deferRecover, out := c.out ++ [Event.importOptions opt.Options] }
  | Pc.deferRecover => { c with pc := Pc.callMain, deferred := true }
  | Pc.callMain =>
      let args := [f.loggingEndpoint, f.controlEndpoint]
      let out := c.out ++ [Event.harnessMain args]
      match w.harnessMain c.out args with
      | MainResult.ok => { c with pc := Pc.success, out := out }
      | MainResult.error err => { c with pc := Pc.mainFailed err, out := out }
      | MainResult.panic r =>
          if c.deferred then { c with pc := Pc.recovered r, out := out }
          else { c with pc := Pc.panicked r, out := out }
  | Pc.mainFailed err =>
      { c with pc := Pc.exiting 1, out := c.out ++ [Event.stderr (workerFailedMsg err)] }
  | Pc.recovered r =>
      match r with
      | some v => { c with pc := Pc.panicReport v }
      | none => { c with pc := Pc.returned }
  | Pc.panicReport v =>
      { c with pc := Pc.dumpStack, out := c.out ++ [Event.stderr (workerPanicMsg v)] }
  | Pc.dumpStack => { c with pc := Pc.exiting 2, out := c.out ++ [Event.printStack] }
  | Pc.exiting code => { c with pc := Pc.exited code }
  | Pc.success =>
      { c with pc := Pc.idle, out := c.out ++ [Event.stderr workerSuccessMsg] }
  | Pc.idle => { c with out := c.out ++ [Event.sleep 1] }
  | Pc.returned => c
  | Pc.exited _ => c
  | Pc.panicked _ => c

/-- The configuration of `hook` after `n` statements. -/
def hook {ρ : Type} (w : World ρ) (f : Flags) : Nat → Config ρ
  | 0 => Config.init ρ
  | n + 1 => step w f (hook w f n)

/-- The program points at which `hook` is over. -/
def Pc.terminal {ρ : Type} : Pc ρ → Bool
  | Pc.returned => true
  | Pc.exited _ => true
  | Pc.panicked _ => true
  | _ => false

/-- The event is a call of `json.Unmarshal`. -/
def Event.isUnmarshal {ρ : Type} : Event ρ → Bool
  | Event.unmarshal _ => true
  | _ => false

/-- The event is a call of `runtime.GlobalOptions.Import`. -/
def Event.isImport {ρ : Type} : Event ρ → Bool
  | Event.importOptions _ => true
  | _ => false

/-- The event is a call of `harness.Main`. -/
def Event.isMain {ρ : Type} : Event ρ → Bool
  | Event.harnessMain _ => true
  | _ => false

/-- The event is a write to stderr, a stack dump or a sleep: the calls `hook`
makes once `harness.Main` has come back. -/
def Event.isLate {ρ : Type} : Event ρ → Bool
  | Event.stderr _ => true
  | Event.printStack => true
  | Event.sleep _ => true
  | _ => false

/-- The program points after the call of `harness.Main`, among them the return
of `hook` from its handler. -/
def Pc.afterMain {ρ : Type} : Pc ρ → Bool
  | Pc.mainFailed _ => true
  | Pc.recovered _ => true
  | Pc.panicReport _ => true
  | Pc.returned => true
  | Pc.dumpStack => true
  | Pc.exiting _ => true
  | Pc.success => true
  | Pc.idle => true
  | Pc.exited _ => true
  | Pc.panicked _ => true
  | _ => false

/-- A world for examples: the text "bad" does not parse, everything else parses
to itself, and harness.Main answers by its logging endpoint: an error for
"fail", a panic with a value for "boom", a panic with the nil value for
"nilpanic", and no error else. -/
def exampleWorld : World String where
  unmarshal := fun s => if s = "bad" then Except.error "invalid character" else Except.ok ⟨s⟩
  harnessMain := fun _ args =>
    match args with
    | "fail" :: _ => MainResult.error "no connection"
    | "boom" :: _ => MainResult.panic (some "nil map")
    | "nilpanic" :: _ => MainResult.panic none
    | _ => MainResult.ok

/-! ## Part 2: `extractFn` (autocomplete.go)

The line is a list of runes (Unicode code points), the view the regular
expression engine has of a string; positions count runes. -/

/-- Syntax of the regular expressions from which the pattern of `wordRE` is
built: a character class given by its ranges, a literal rune, concatenation,
the greedy operators `+` and `?`, and a capture group. -/
inductive Regex where
  | cls (ranges : List (Char × Char))
  | lit (c : Char)
  | cat (r₁ r₂ : Regex)
  | plus (r : Regex)
  | quest (r : Regex)
  | group (r : Regex)
  deriving DecidableEq, Repr

/-- Membership of a rune in a character class: it lies in one of the ranges,
bounds included. -/
def inRanges (ranges : List (Char × Char)) (c : Char) : Bool :=
  ranges.any fun r => decide (r.1 ≤ c) && decide (c ≤ r.2)

/-- Greedy iteration of a matcher `one`, one or more times: after each match of
`one` the iteration first tries to go on (when the match consumed input) and
then to stop.  The number bounds the iterations. -/
def plusLoop (one : List Char → List (List Char)) : Nat → List Char → List (List Char)
  | 0, _ => []
  | n + 1, s =>
      (one s).flatMap fun s' =>
        (if s'.length < s.length then plusLoop one n s' else []) ++ [s']

/-- The backtracking matcher: all the ways the expression matches a prefix of
the input, each given by the input left after the match, in the order a
backtracking search finds them (greedy operators try the longer match first).
The first entry is the match of leftmost-first semantics. -/
def Regex.run : Regex → List Char → List (List Char)
  | Regex.cls ranges, s =>
      match s with
      | c :: t => if inRanges ranges c then [t] else []
      | [] => []
  | Regex.lit a, s =>
      match s with
      | c :: t => if c = a then [t] else []
      | [] => []
  | Regex.cat r₁ r₂, s => (Regex.run r₁ s).flatMap (Regex.run r₂)
  | Regex.plus r, s => plusLoop (Regex.run r) (s.length + 1) s
  | Regex.quest r, s => Regex.run r s ++ [s]
  | Regex.group r, s => Regex.run r s

/-- Search for the first position at or after `pos` where the expression
matches, trying `k` start positions: the start and end of the match found
there. -/
def searchFrom (re : Regex) (s : List Char) : Nat → Nat → Option (Nat × Nat)
  | 0, _ => none
  | k + 1, pos =>
      match (re.run (s.drop pos)).head? with
      | some rest => some (pos, s.length - rest.length)
      | none => searchFrom re s k (pos + 1)

/-- The engine entry point `re.doExecute(..., pos, ...)`: the leftmost match
starting at or after `pos`, if there is one. -/
def doExecute (re : Regex) (s : List Char) (pos : Nat) : Option (Nat × Nat) :=
  searchFrom re s (s.length + 1 - pos) pos

/-- The loop of `(*Regexp).allMatches` with at most `n` matches delivered:
`i` counts the delivered matches, `pos` is where the next search starts and
`prevMatchEnd` is the end of the previous match (`-1` at first).  An empty
match right after the previous match is not delivered, and after an empty
match the search moves on by one rune.  The first number bounds the turns of
the loop; each turn moves `pos` forward and the loop ends once `pos` is past
the end of the input. -/
def allMatchesLoop (re : Regex) (s : List Char) (n : Nat) :
    Nat → Nat → Nat → Int → List (Nat × Nat)
  | 0, _, _, _ => []
  | fuel + 1, i, pos, prevMatchEnd =>
      if i < n ∧ pos ≤ s.length then
        match doExecute re s pos with
        | none => []
        | some m =>
            let accept := !(decide (m.2 = pos) && decide ((m.1 : Int) = prevMatchEnd))
            let pos' :=
              if m.2 = pos then (if pos < s.length then pos + 1 else s.length + 1) else m.2
            if accept then m :: allMatchesLoop re s n fuel (i + 1) pos' m.2
            else allMatchesLoop re s n fuel i pos' m.2
      else []

/-- The function `(*Regexp).allMatches`: the successive matches in `s`. -/
def allMatches (re : Regex) (s : List Char) (n : Nat) : List (Nat × Nat) :=
  allMatchesLoop re s n (s.length + 2) 0 0 (-1)

/-- The slice `s[lo:hi]`. -/
def slice (s : List Char) (lo hi : Nat) : List Char := (s.drop lo).take (hi - lo)

/-- The function `(*Regexp).FindAllString(s, n)` for a negative `n`: the text of
all successive matches, the limit being `len(s) + 1` with `len(s)` the length
of the string in bytes. -/
def FindAllString (re : Regex) (s : String) : List String :=
  (allMatches re s.data (s.utf8ByteSize + 1)).map fun m => String.mk (slice s.data m.1 m.2)

/-- The pattern of autocomplete.go, line 24: `[a-zA-Z]+('[a-z])?`. -/
def wordRE : Regex :=
  Regex.cat (Regex.plus (Regex.cls [('a', 'z'), ('A', 'Z')]))
    (Regex.quest (Regex.group (Regex.cat (Regex.lit '\'') (Regex.cls [('a', 'z')]))))

/-- The function `extractFn` of autocomplete.go, lines 26-30: `emit` is called
on each word in turn; the calls are threaded through a state `σ`. -/
def extractFn {σ : Type} (line : String) (emit : String → σ → σ) (st : σ) : σ :=
  (FindAllString wordRE line).foldl (fun acc word => emit word acc) st

/-- The words `extractFn` emits, in order: `emit` appends to a list. -/
def emitted (line : String) : List String :=
  extractFn line (fun word acc => acc ++ [word]) []

/-! ### The reference scanner -/

/-- An ASCII letter. -/
def isAsciiLetter (c : Char) : Bool :=
  (decide ('a' ≤ c) && decide (c ≤ 'z')) || (decide ('A' ≤ c) && decide (c ≤ 'Z'))

/-- A lowercase ASCII letter. -/
def isAsciiLower (c : Char) : Bool := decide ('a' ≤ c) && decide (c ≤ 'z')

/-- One word of the reference scanner, for an input that starts with an ASCII
letter: the maximal run of ASCII letters, extended by an apostrophe plus one
lowercase ASCII letter when those two runes follow at once; and the input left
after the word. -/
def takeWord (u : List Char) : List Char × List Char :=
  let run := u.takeWhile isAsciiLetter
  match u.dropWhile isAsciiLetter with
  | a :: l :: rest =>
      if a = '\'' ∧ isAsciiLower l = true then (run ++ [a, l], rest)
      else (run, a :: l :: rest)
  | rest => (run, rest)

/-- The reference scanner: skip to the next ASCII letter, take the word that
starts there, emit it and resume after it.  The number bounds the words
emitted. -/
def scanWords : Nat → List Char → List (List Char)
  | 0, _ => []
  | fuel + 1, s =>
      match s.dropWhile fun c => !isAsciiLetter c with
      | [] => []
      | c :: t => (takeWord (c :: t)).1 :: scanWords fuel (takeWord (c :: t)).2

/-- The reference scanner on a line; a line of `n` runes holds at most `n`
words. -/
def referenceScanner (line : String) : List String :=
  (scanWords line.data.length line.data).map String.mk

/-! ### Inputs for examples -/

/-- Flags for examples: worker mode, two endpoints, a directory and the given
options text. -/
def exampleFlags (options : String) : Flags :=
  ⟨true, "logging:1", "control:2", "/tmp/persist", options⟩

/-- Flags for examples: worker mode and the four other flags empty. -/
def emptyFlags : Flags := ⟨true, "", "", "", ""⟩

/-- Flags for examples: as `exampleFlags` without options, with the given
logging endpoint. -/
def loggingFlags (loggingEndpoint : String) : Flags :=
  ⟨true, loggingEndpoint, "control:2", "/tmp/persist", ""⟩

/-! ## Part 3: properties of `hook` -/

section HookLemmas

variable {ρ : Type} (w : World ρ) (f : Flags)

theorem step_of_terminal (c : Config ρ) (h : c.pc.terminal = true) : step w f c = c := by
  cases c with
  | mk pc d out =>
    cases pc <;> simp_all [Pc.terminal, step]

theorem hook_succ (n : Nat) : hook w f (n + 1) = step w f (hook w f n) := rfl

/-- Once over, `hook` stays over, in the same configuration. -/
theorem hook_of_terminal {k : Nat} (h : (hook w f k).pc.terminal = true) (n : Nat) :
    hook w f (k + n) = hook w f k := by
  induction n with
  | zero => rfl
  | succ n ih => rw [← Nat.add_assoc, hook_succ, ih, step_of_terminal w f _ h]

theorem hook_of_terminal_le {k : Nat} (h : (hook w f k).pc.terminal = true) {n : Nat}
    (hn : k ≤ n) : hook w f n = hook w f k := by
  obtain ⟨m, rfl⟩ := Nat.exists_eq_add_of_le hn
  exact hook_of_terminal w f h m

/-- Outside worker mode `hook` returns at once. -/
theorem hook_not_worker (hw : f.worker = false) (n : Nat) :
    hook w f (n + 1) = ⟨Pc.returned, false, []⟩ := by
  induction n with
  | zero => simp [hook, step, Config.init, hw]
  | succ n ih => rw [hook_succ, ih]; rfl

/-- Outside worker mode the trace stays empty. -/
theorem hook_not_worker_out (hw : f.worker = false) (n : Nat) : (hook w f n).out = [] := by
  cases n with
  | zero => rfl
  | succ n => rw [hook_not_worker w f hw n]

theorem hook_one (hw : f.worker = true) : hook w f 1 = ⟨Pc.checkOptions, false, []⟩ := by
  simp [hook, step, Config.init, hw]

/-- The run on options that do not parse. -/
theorem hook_parse_error (hw : f.worker = true) (ho : f.options ≠ "") {e : String}
    (hu : w.unmarshal f.options = Except.error e) :
    hook w f 2 = ⟨Pc.parseFailed e, false, [Event.unmarshal f.options]⟩ ∧
    hook w f 3 = ⟨Pc.exiting 1, false,
      [Event.unmarshal f.options, Event.stderr (parseFailedMsg f.options e)]⟩ ∧
    ∀ n, hook w f (n + 4) = ⟨Pc.exited 1, false,
      [Event.unmarshal f.options, Event.stderr (parseFailedMsg f.options e)]⟩ := by
  have h2 : hook w f 2 = ⟨Pc.parseFailed e, false, [Event.unmarshal f.options]⟩ := by
    rw [hook_succ, hook_one w f hw]; simp [step, ho, hu]
  have h3 : hook w f 3 = ⟨Pc.exiting 1, false,
      [Event.unmarshal f.options, Event.stderr (parseFailedMsg f.options e)]⟩ := by
    rw [hook_succ, h2]; simp [step]
  have h4 : hook w f 4 = ⟨Pc.exited 1, false,
      [Event.unmarshal f.options, Event.stderr (parseFailedMsg f.options e)]⟩ := by
    rw [hook_succ, h3]; simp [step]
  refine ⟨h2, h3, fun n => ?_⟩
  rw [Nat.add_comm, hook_of_terminal w f (by rw [h4]; rfl), h4]

/-- The run on options that parse, up to the call of `harness.Main`. -/
theorem hook_parse_ok (hw : f.worker = true) (ho : f.options ≠ "") {o : wrapper ρ}
    (hu : w.unmarshal f.options = Except.ok o) :
    hook w f 2 = ⟨Pc.doImport o, false, [Event.unmarshal f.options]⟩ ∧
    hook w f 3 = ⟨Pc.deferRecover, false,
      [Event.unmarshal f.options, Event.importOptions o.Options]⟩ ∧
    hook w f 4 = ⟨Pc.callMain, true,
      [Event.unmarshal f.options, Event.importOptions o.Options]⟩ := by
  have h2 : hook w f 2 = ⟨Pc.doImport o, false, [Event.unmarshal f.options]⟩ := by
    rw [hook_succ, hook_one w f hw]; simp [step, ho, hu]
  have h3 : hook w f 3 = ⟨Pc.deferRecover, false,
      [Event.unmarshal f.options, Event.importOptions o.Options]⟩ := by
    rw [hook_succ, h2]; simp [step]
  refine ⟨h2, h3, ?_⟩
  rw [hook_succ, h3]; simp [step]

/-- The run without options, up to the call of `harness.Main`. -/
theorem hook_no_options (hw : f.worker = true) (ho : f.options = "") :
    hook w f 2 = ⟨Pc.deferRecover, false, []⟩ ∧ hook w f 3 = ⟨Pc.callMain, true, []⟩ := by
  have h2 : hook w f 2 = ⟨Pc.deferRecover, false, []⟩ := by
    rw [hook_succ, hook_one w f hw]; simp [step, ho]
  refine ⟨h2, ?_⟩
  rw [hook_succ, h2]; simp [step]

/-- The handler is registered whenever `harness.Main` is about to be called,
and no panic ever leaves `hook`. -/
theorem hook_deferred (n : Nat) :
    ((hook w f n).pc = Pc.callMain → (hook w f n).deferred = true) ∧
    ∀ r, (hook w f n).pc ≠ Pc.panicked r := by
  induction n with
  | zero => simp [hook, Config.init]
  | succ n ih =>
    rw [hook_succ]
    generalize hook w f n = c at ih ⊢
    obtain ⟨pc, d, out⟩ := c
    cases pc <;> simp [step] at ih ⊢ <;> (try split) <;> (try split) <;> simp_all

/-- The run after `harness.Main` came back without error. -/
theorem hook_main_ok {k : Nat} {d : Bool} {pre : List (Event ρ)}
    (hk : hook w f k = ⟨Pc.callMain, d, pre⟩)
    (hm : w.harnessMain pre [f.loggingEndpoint, f.controlEndpoint] = MainResult.ok) :
    hook w f (k + 1) = ⟨Pc.success, d,
      pre ++ [Event.harnessMain [f.loggingEndpoint, f.controlEndpoint]]⟩ ∧
    ∀ n, hook w f (k + 2 + n) = ⟨Pc.idle, d,
      pre ++ [Event.harnessMain [f.loggingEndpoint, f.controlEndpoint],
        Event.stderr workerSuccessMsg] ++ List.replicate n (Event.sleep 1)⟩ := by
  have h1 : hook w f (k + 1) = ⟨Pc.success, d,
      pre ++ [Event.harnessMain [f.loggingEndpoint, f.controlEndpoint]]⟩ := by
    rw [hook_succ, hk]; simp [step, hm]
  refine ⟨h1, fun n => ?_⟩
  induction n with
  | zero => rw [Nat.add_zero, hook_succ, h1]; simp [step]
  | succ n ih =>
    rw [← Nat.add_assoc, hook_succ, ih]
    simp [step, List.replicate_succ']

/-- The run after `harness.Main` returned an error. -/
theorem hook_main_error {k : Nat} {d : Bool} {pre : List (Event ρ)} {e : String}
    (hk : hook w f k = ⟨Pc.callMain, d, pre⟩)
    (hm : w.harnessMain pre [f.loggingEndpoint, f.controlEndpoint] = MainResult.error e) :
    hook w f (k + 1) = ⟨Pc.mainFailed e, d,
      pre ++ [Event.harnessMain [f.loggingEndpoint, f.controlEndpoint]]⟩ ∧
    hook w f (k + 2) = ⟨Pc.exiting 1, d,
      pre ++ [Event.harnessMain [f.loggingEndpoint, f.controlEndpoint],
        Event.stderr (workerFailedMsg e)]⟩ ∧
    ∀ n, hook w f (k + 3 + n) = ⟨Pc.exited 1, d,
      pre ++ [Event.harnessMain [f.loggingEndpoint, f.controlEndpoint],
        Event.stderr (workerFailedMsg e)]⟩ := by
  have h1 : hook w f (k + 1) = ⟨Pc.mainFailed e, d,
      pre ++ [Event.harnessMain [f.loggingEndpoint, f.controlEndpoint]]⟩ := by
    rw [hook_succ, hk]; simp [step, hm]
  have h2 : hook w f (k + 2) = ⟨Pc.exiting 1, d,
      pre ++ [Event.harnessMain [f.loggingEndpoint, f.controlEndpoint],
        Event.stderr (workerFailedMsg e)]⟩ := by
    rw [hook_succ, h1]; simp [step]
  have h3 : hook w f (k + 3) = ⟨Pc.exited 1, d,
      pre ++ [Event.harnessMain [f.loggingEndpoint, f.controlEndpoint],
        Event.stderr (workerFailedMsg e)]⟩ := by
    rw [hook_succ, h2]; simp [step]
  refine ⟨h1, h2, fun n => ?_⟩
  rw [hook_of_terminal w f (by rw [h3]; rfl), h3]

/-- The run after `harness.Main` panicked with a value that is not nil, under
the registered handler. -/
theorem hook_main_panic {k : Nat} {pre : List (Event ρ)} {r : String}
    (hk : hook w f k = ⟨Pc.callMain, true, pre⟩)
    (hm : w.harnessMain pre [f.loggingEndpoint, f.controlEndpoint]
      = MainResult.panic (some r)) :
    hook w f (k + 1) = ⟨Pc.recovered (some r), true,
      pre ++ [Event.harnessMain [f.loggingEndpoint, f.controlEndpoint]]⟩ ∧
    hook w f (k + 2) = ⟨Pc.panicReport r, true,
      pre ++ [Event.harnessMain [f.loggingEndpoint, f.controlEndpoint]]⟩ ∧
    hook w f (k + 3) = ⟨Pc.dumpStack, true,
      pre ++ [Event.harnessMain [f.loggingEndpoint, f.controlEndpoint],
        Event.stderr (workerPanicMsg r)]⟩ ∧
    hook w f (k + 4) = ⟨Pc.exiting 2, true,
      pre ++ [Event.harnessMain [f.loggingEndpoint, f.controlEndpoint],
        Event.stderr (workerPanicMsg r), Event.printStack]⟩ ∧
    ∀ n, hook w f (k + 5 + n) = ⟨Pc.exited 2, true,
      pre ++ [Event.harnessMain [f.loggingEndpoint, f.controlEndpoint],
        Event.stderr (workerPanicMsg r), Event.printStack]⟩ := by
  have h1 : hook w f (k + 1) = ⟨Pc.recovered (some r), true,
      pre ++ [Event.harnessMain [f.loggingEndpoint, f.controlEndpoint]]⟩ := by
    rw [hook_succ, hk]; simp [step, hm]
  have h2 : hook w f (k + 2) = ⟨Pc.panicReport r, true,
      pre ++ [Event.harnessMain [f.loggingEndpoint, f.controlEndpoint]]⟩ := by
    rw [hook_succ, h1]; simp [step]
  have h3 : hook w f (k + 3) = ⟨Pc.dumpStack, true,
      pre ++ [Event.harnessMain [f.loggingEndpoint, f.controlEndpoint],
        Event.stderr (workerPanicMsg r)]⟩ := by
    rw [hook_succ, h2]; simp [step]
  have h4 : hook w f (k + 4) = ⟨Pc.exiting 2, true,
      pre ++ [Event.harnessMain [f.loggingEndpoint, f.controlEndpoint],
        Event.stderr (workerPanicMsg r), Event.printStack]⟩ := by
    rw [hook_succ, h3]; simp [step]
  have h5 : hook w f (k + 5) = ⟨Pc.exited 2, true,
      pre ++ [Event.harnessMain [f.loggingEndpoint, f.controlEndpoint],
        Event.stderr (workerPanicMsg r), Event.printStack]⟩ := by
    rw [hook_succ, h4]; simp [step]
  refine ⟨h1, h2, h3, h4, fun n => ?_⟩
  rw [hook_of_terminal w f (by rw [h5]; rfl), h5]

/-- The run after `harness.Main` panicked with the nil value, under the
registered handler: the test of line 78 fails, the handler does nothing and
`hook` returns, the call of `harness.Main` being the last event. -/
theorem hook_main_nil_panic {k : Nat} {pre : List (Event ρ)}
    (hk : hook w f k = ⟨Pc.callMain, true, pre⟩)
    (hm : w.harnessMain pre [f.loggingEndpoint, f.controlEndpoint] = MainResult.panic none) :
    hook w f (k + 1) = ⟨Pc.recovered none, true,
      pre ++ [Event.harnessMain [f.loggingEndpoint, f.controlEndpoint]]⟩ ∧
    ∀ n, hook w f (k + 2 + n) = ⟨Pc.returned, true,
      pre ++ [Event.harnessMain [f.loggingEndpoint, f.controlEndpoint]]⟩ := by
  have h1 : hook w f (k + 1) = ⟨Pc.recovered none, true,
      pre ++ [Event.harnessMain [f.loggingEndpoint, f.controlEndpoint]]⟩ := by
    rw [hook_succ, hk]; simp [step, hm]
  have h2 : hook w f (k + 2) = ⟨Pc.returned, true,
      pre ++ [Event.harnessMain [f.loggingEndpoint, f.controlEndpoint]]⟩ := by
    rw [hook_succ, h1]; simp [step]
  refine ⟨h1, fun n => ?_⟩
  rw [hook_of_terminal w f (by rw [h2]; rfl), h2]

end HookLemmas

section HookShape

variable {ρ : Type} (w : World ρ) (f : Flags)

/-- The configuration at the call of `harness.Main`, spelled out. -/
theorem hook_at_callMain {k : Nat} (hk : (hook w f k).pc = Pc.callMain) :
    hook w f k = ⟨Pc.callMain, true, (hook w f k).out⟩ := by
  have hd := (hook_deferred w f k).1 hk
  generalize hook w f k = c at hk hd ⊢
  obtain ⟨pc, d, out⟩ := c
  simp_all

/-- The call of `harness.Main` is reached in worker mode only. -/
theorem worker_of_callMain {k : Nat} (hk : (hook w f k).pc = Pc.callMain) :
    f.worker = true := by
  cases hw : f.worker with
  | true => rfl
  | false =>
    cases k with
    | zero => simp [hook, Config.init] at hk
    | succ k => rw [hook_not_worker w f hw k] at hk; simp at hk

/-- Before the call of `harness.Main` the run is neither over nor exiting. -/
theorem hook_before_callMain {k : Nat} (hk : (hook w f k).pc = Pc.callMain) {n : Nat}
    (hn : n ≤ k) : (hook w f n).pc.terminal = false ∧ ∀ code, (hook w f n).pc ≠ Pc.exiting code := by
  constructor
  · by_contra ht
    have ht' : (hook w f n).pc.terminal = true := by simpa using ht
    have := hook_of_terminal_le w f ht' hn
    rw [this] at hk
    rw [hk] at ht'
    simp [Pc.terminal] at ht'
  · intro code hc
    rcases Nat.eq_or_lt_of_le hn with h | h
    · subst h; rw [hk] at hc; simp at hc
    · have h1 : (hook w f (n + 1)).pc = Pc.exited code := by
        rw [hook_succ]
        generalize hook w f n = c at hc
        obtain ⟨pc, d, out⟩ := c
        simp at hc
        subst hc
        simp [step]
      have ht' : (hook w f (n + 1)).pc.terminal = true := by rw [h1]; rfl
      have := hook_of_terminal_le w f ht' h
      rw [this, h1] at hk
      simp at hk

/-- After the call of `harness.Main` the trace is the trace before the call,
the call, and then only writes to stderr, the stack dump and sleeps. -/
theorem hook_after_callMain {k : Nat} (hk : (hook w f k).pc = Pc.callMain) (n : Nat) :
    (hook w f (k + 1 + n)).pc.afterMain = true ∧
    ∃ tail, (hook w f (k + 1 + n)).out =
        (hook w f k).out ++ Event.harnessMain [f.loggingEndpoint, f.controlEndpoint] :: tail ∧
      ∀ ev ∈ tail, Event.isLate ev = true := by
  induction n with
  | zero =>
    rw [Nat.add_zero, hook_succ]
    generalize hook w f k = c at hk ⊢
    obtain ⟨pc, d, out⟩ := c
    simp at hk
    subst hk
    simp only [step]
    split <;> (try split) <;> simp [Pc.afterMain]
  | succ n ih =>
    rw [← Nat.add_assoc, hook_succ]
    generalize hook w f (k + 1 + n) = c at ih ⊢
    obtain ⟨pc, d, out⟩ := c
    obtain ⟨hpc, tail, hout, hlate⟩ := ih
    simp at hout
    subst hout
    cases pc <;> simp [Pc.afterMain] at hpc <;> simp [step, Pc.afterMain]
    all_goals first
      | exact hlate
      | (intro ev hev
         rcases hev with hev | hev
         · exact hlate ev hev
         · subst hev; rfl)
      | (rename_i r
         cases r <;> simp [Pc.afterMain] <;> exact hlate)

theorem filter_late_unmarshal {tail : List (Event ρ)} (h : ∀ ev ∈ tail, Event.isLate ev = true) :
    tail.filter Event.isUnmarshal = [] ∧ tail.filter Event.isImport = [] ∧
      tail.filter Event.isMain = [] := by
  refine ⟨?_, ?_, ?_⟩ <;>
  · rw [List.filter_eq_nil_iff]
    intro ev hev
    have := h ev hev
    cases ev <;> simp_all [Event.isLate, Event.isUnmarshal, Event.isImport, Event.isMain]

end HookShape

/-! ### The claims on `hook` -/

/-- A text that starts with a non-empty text is not empty. -/
theorem append_ne_empty (a b : String) (ha : a ≠ "") : a ++ b ≠ "" := by
  intro h
  apply ha
  have hd := congrArg String.data h
  rw [String.data_append] at hd
  have : a.data = [] := (List.append_eq_nil.mp hd).1
  cases a
  simp_all

/-- Claim C1: in worker mode, when initialization fails (the non-empty options
text does not parse with error e, or the run reaches the call of harness.Main
and that call returns an error e), hook writes a diagnostic to stderr, the
non-empty text "Failed to parse pipeline options 'OPTIONS': e" in the first
case and "Worker failed: e" in the second, and then terminates the process with
status 1, this write being the last thing it did; and at no point of such a
run is the process exiting, or has it exited, with status 0 or without this
write as the last event. -/
theorem hook_init_failure_exits_nonzero {ρ : Type} (w : World ρ) (f : Flags)
    (hw : f.worker = true)
    (hfail : (f.options ≠ "" ∧ ∃ e, w.unmarshal f.options = Except.error e) ∨
      ∃ k e, (hook w f k).pc = Pc.callMain ∧
        w.harnessMain (hook w f k).out [f.loggingEndpoint, f.controlEndpoint]
          = MainResult.error e) :
    ∃ msg,
      ((∃ e, f.options ≠ "" ∧ w.unmarshal f.options = Except.error e ∧
          msg = "Failed to parse pipeline options '" ++ f.options ++ "': " ++ e) ∨
        ∃ k e, (hook w f k).pc = Pc.callMain ∧
          w.harnessMain (hook w f k).out [f.loggingEndpoint, f.controlEndpoint]
            = MainResult.error e ∧
          msg = "Worker failed: " ++ e) ∧
      msg ≠ "" ∧
      (∃ N, ∀ n, N ≤ n → (hook w f n).pc = Pc.exited 1 ∧
        (hook w f n).out.getLast? = some (Event.stderr msg)) ∧
      ∀ n code, (hook w f n).pc = Pc.exiting code ∨ (hook w f n).pc = Pc.exited code →
        code ≠ 0 ∧ (hook w f n).out.getLast? = some (Event.stderr msg) := by
  rcases hfail with ⟨ho, e, hu⟩ | ⟨k, e, hk, hm⟩
  · obtain ⟨h2, h3, h4⟩ := hook_parse_error w f hw ho hu
    refine ⟨"Failed to parse pipeline options '" ++ f.options ++ "': " ++ e,
      Or.inl ⟨e, ho, hu, rfl⟩, ?_, ⟨4, fun n hn => ?_⟩, fun n code hc => ?_⟩
    · rw [String.append_assoc, String.append_assoc]
      exact append_ne_empty _ _ (by decide)
    · obtain ⟨m, rfl⟩ := Nat.exists_eq_add_of_le hn
      rw [Nat.add_comm, h4]; simp [parseFailedMsg]
    · match n with
      | 0 => simp [hook, Config.init] at hc
      | 1 => simp [hook_one w f hw] at hc
      | 2 => simp [h2] at hc
      | 3 => rw [h3] at hc ⊢; simp at hc; subst hc; simp [parseFailedMsg]
      | n + 4 => rw [h4] at hc ⊢; simp at hc; subst hc; simp [parseFailedMsg]
  · have hk' := hook_at_callMain w f hk
    obtain ⟨h1, h2, h3⟩ := hook_main_error w f hk' hm
    refine ⟨"Worker failed: " ++ e, Or.inr ⟨k, e, hk, hm, rfl⟩,
      append_ne_empty _ _ (by decide), ⟨k + 3, fun n hn => ?_⟩, fun n code hc => ?_⟩
    · obtain ⟨m, rfl⟩ := Nat.exists_eq_add_of_le hn
      rw [h3]; simp [workerFailedMsg]
    · rcases Nat.lt_or_ge n k with hlt | hge
      · have := hook_before_callMain w f hk (Nat.le_of_lt hlt)
        rcases hc with hc | hc
        · exact absurd hc (this.2 code)
        · rw [hc] at this; simp [Pc.terminal] at this
      · obtain ⟨m, rfl⟩ := Nat.exists_eq_add_of_le hge
        match m with
        | 0 => rw [Nat.add_zero, hk] at hc; simp at hc
        | 1 => simp [h1] at hc
        | 2 => rw [h2] at hc ⊢; simp at hc; subst hc; simp [workerFailedMsg]
        | m + 3 =>
          rw [← Nat.add_assoc, Nat.add_right_comm k m 3, h3] at hc ⊢
          simp at hc; subst hc; simp [workerFailedMsg]

/-- Claim C1, instance: options "bad" do not parse in the example world; the run
ends with status 1 after the diagnostic that names the options and the
error. -/
theorem hook_init_failure_exits_nonzero_witness :
    (exampleFlags "bad").worker = true ∧
    (exampleFlags "bad").options ≠ "" ∧
    exampleWorld.unmarshal (exampleFlags "bad").options = Except.error "invalid character" ∧
    hook exampleWorld (exampleFlags "bad") 4 = ⟨Pc.exited 1, false,
      [Event.unmarshal "bad",
        Event.stderr "Failed to parse pipeline options 'bad': invalid character"]⟩ ∧
    ∃ msg,
      ((∃ e, (exampleFlags "bad").options ≠ "" ∧
          exampleWorld.unmarshal (exampleFlags "bad").options = Except.error e ∧
          msg = "Failed to parse pipeline options '" ++ (exampleFlags "bad").options
            ++ "': " ++ e) ∨
        ∃ k e, (hook exampleWorld (exampleFlags "bad") k).pc = Pc.callMain ∧
          exampleWorld.harnessMain (hook exampleWorld (exampleFlags "bad") k).out
            [(exampleFlags "bad").loggingEndpoint, (exampleFlags "bad").controlEndpoint]
            = MainResult.error e ∧
          msg = "Worker failed: " ++ e) ∧
      msg ≠ "" ∧
      (∃ N, ∀ n, N ≤ n → (hook exampleWorld (exampleFlags "bad") n).pc = Pc.exited 1 ∧
        (hook exampleWorld (exampleFlags "bad") n).out.getLast? = some (Event.stderr msg)) ∧
      ∀ n code, (hook exampleWorld (exampleFlags "bad") n).pc = Pc.exiting code ∨
          (hook exampleWorld (exampleFlags "bad") n).pc = Pc.exited code →
        code ≠ 0 ∧
          (hook exampleWorld (exampleFlags "bad") n).out.getLast? = some (Event.stderr msg) :=
  ⟨rfl, by decide, rfl, by decide,
    hook_init_failure_exits_nonzero exampleWorld (exampleFlags "bad") rfl
      (Or.inl ⟨by decide, "invalid character", rfl⟩)⟩

/-- Claim C2: when the worker flag is false, whatever the other four flags
are, hook makes no call at all (no write to stderr, no parse, no import, no
call of harness.Main, no sleep), registers nothing, and after its first
statement it has returned to its caller: it never exits the process. -/
theorem hook_not_worker_noop {ρ : Type} (w : World ρ) (f : Flags) (hw : f.worker = false) :
    ∀ n, (hook w f n).out = [] ∧ (hook w f n).deferred = false ∧
      (1 ≤ n → (hook w f n).pc = Pc.returned) ∧ ∀ code, (hook w f n).pc ≠ Pc.exited code := by
  intro n
  cases n with
  | zero => simp [hook, Config.init]
  | succ n => simp [hook_not_worker w f hw n]

/-- Claim C2, instance: the flags carry endpoints and options but no worker
flag. -/
theorem hook_not_worker_noop_witness :
    (Flags.mk false "logging:1" "control:2" "/tmp" "bad").worker = false ∧
    ∀ n, (hook exampleWorld ⟨false, "logging:1", "control:2", "/tmp", "bad"⟩ n).out = [] ∧
      (hook exampleWorld ⟨false, "logging:1", "control:2", "/tmp", "bad"⟩ n).deferred = false ∧
      (1 ≤ n → (hook exampleWorld ⟨false, "logging:1", "control:2", "/tmp", "bad"⟩ n).pc
        = Pc.returned) ∧
      ∀ code, (hook exampleWorld ⟨false, "logging:1", "control:2", "/tmp", "bad"⟩ n).pc
        ≠ Pc.exited code :=
  ⟨rfl, hook_not_worker_noop exampleWorld ⟨false, "logging:1", "control:2", "/tmp", "bad"⟩ rfl⟩

/-- Claim C3, as stated, fails: in the worker-mode run with logging endpoint
"logging:1", control endpoint "control:2" and no options, the whole trace after
five statements is the call of harness.Main with exactly these two arguments
and the success message; no call of harness.Main carries a third (data)
endpoint. -/
theorem hook_main_three_endpoints_counterexample :
    (exampleFlags "").worker = true ∧
    (hook exampleWorld (exampleFlags "") 5).out =
      [Event.harnessMain ["logging:1", "control:2"], Event.stderr "Worker exited successfully!"] ∧
    ¬ ∃ l c d, Event.harnessMain [l, c, d] ∈ (hook exampleWorld (exampleFlags "") 5).out := by
  have htrace : (hook exampleWorld (exampleFlags "") 5).out =
      [Event.harnessMain ["logging:1", "control:2"], Event.stderr "Worker exited successfully!"] := by
    decide
  refine ⟨rfl, htrace, ?_⟩
  rintro ⟨l, c, d, h⟩
  rw [htrace] at h
  simp at h

/-- Claim C3, amended: every call of harness.Main that hook makes receives
exactly two endpoints, the logging_endpoint flag and the control_endpoint flag
in this order (no data endpoint and not the persist_dir flag); and such a call
is made in worker mode only. -/
theorem hook_main_two_endpoints {ρ : Type} (w : World ρ) (f : Flags) (n : Nat)
    (args : List String) (h : Event.harnessMain args ∈ (hook w f n).out) :
    args = [f.loggingEndpoint, f.controlEndpoint] ∧ f.worker = true := by
  constructor
  · induction n with
    | zero => simp [hook, Config.init] at h
    | succ n ih =>
      rw [hook_succ] at h
      generalize hook w f n = c at ih h
      obtain ⟨pc, d, out⟩ := c
      cases pc <;> simp only [step] at h <;> (try split at h) <;> (try split at h) <;>
        simp_all <;> exact h.elim ih id
  · cases hw : f.worker with
    | true => rfl
    | false =>
      have := hook_not_worker_out w f hw n
      rw [this] at h
      simp at h

/-- Claim C3 amended, instance: the run of the counterexample. -/
theorem hook_main_two_endpoints_witness :
    Event.harnessMain ["logging:1", "control:2"] ∈ (hook exampleWorld (exampleFlags "") 5).out ∧
    (["logging:1", "control:2"] =
        [(exampleFlags "").loggingEndpoint, (exampleFlags "").controlEndpoint] ∧
      (exampleFlags "").worker = true) :=
  ⟨by decide, hook_main_two_endpoints exampleWorld (exampleFlags "") 5 _ (by decide)⟩

/-- Claim C4: in every worker-mode run the options text is parsed at most
once.  If it is non-empty and parses, Import is called exactly once, with the
"options" field of the parsed value, and every call of harness.Main comes
after that call.  If it is non-empty and does not parse, neither Import nor
harness.Main is ever called.  If it is empty, Import is never called (and
nothing is parsed). -/
theorem hook_options_handled_once_before_main {ρ : Type} (w : World ρ) (f : Flags)
    (hw : f.worker = true) :
    (∀ n, ((hook w f n).out.filter Event.isUnmarshal).length ≤ 1) ∧
    (∀ o, f.options ≠ "" → w.unmarshal f.options = Except.ok o →
      (∀ n, 3 ≤ n → (hook w f n).out.filter Event.isImport = [Event.importOptions o.Options]) ∧
      ∀ n pre args post, (hook w f n).out = pre ++ Event.harnessMain args :: post →
        Event.importOptions o.Options ∈ pre) ∧
    (∀ e, f.options ≠ "" → w.unmarshal f.options = Except.error e →
      ∀ n, (hook w f n).out.filter Event.isImport = [] ∧
        (hook w f n).out.filter Event.isMain = []) ∧
    (f.options = "" →
      ∀ n, (hook w f n).out.filter Event.isImport = [] ∧
        (hook w f n).out.filter Event.isUnmarshal = []) := by
  have h1 := hook_one w f hw
  -- the run without options
  have hempty : f.options = "" → ∀ n, (hook w f n).out.filter Event.isImport = [] ∧
      (hook w f n).out.filter Event.isUnmarshal = [] := by
    intro ho n
    obtain ⟨h2, h3⟩ := hook_no_options w f hw ho
    have hk : (hook w f 3).pc = Pc.callMain := by rw [h3]
    match n with
    | 0 => simp [hook, Config.init]
    | 1 => simp [h1]
    | 2 => simp [h2]
    | 3 => simp [h3]
    | n + 4 =>
      obtain ⟨-, tail, hout, hlate⟩ := hook_after_callMain w f hk n
      obtain ⟨hu, hi, -⟩ := filter_late_unmarshal hlate
      rw [Nat.add_comm n 4, hout, h3]
      simp [List.filter_cons, Event.isImport, Event.isUnmarshal, hu, hi]
  -- the run on options that do not parse
  have herror : ∀ e, f.options ≠ "" → w.unmarshal f.options = Except.error e →
      ∀ n, (hook w f n).out.filter Event.isImport = [] ∧
        (hook w f n).out.filter Event.isMain = [] ∧
        ((hook w f n).out.filter Event.isUnmarshal).length ≤ 1 := by
    intro e ho hu n
    obtain ⟨h2, h3, h4⟩ := hook_parse_error w f hw ho hu
    match n with
    | 0 => simp [hook, Config.init]
    | 1 => simp [h1]
    | 2 => simp [h2, List.filter_cons, Event.isImport, Event.isMain, Event.isUnmarshal]
    | 3 => simp [h3, List.filter_cons, Event.isImport, Event.isMain, Event.isUnmarshal]
    | n + 4 => simp [h4, List.filter_cons, Event.isImport, Event.isMain, Event.isUnmarshal]
  -- the run on options that parse
  have hok : ∀ o, f.options ≠ "" → w.unmarshal f.options = Except.ok o →
      (∀ n, 3 ≤ n → (hook w f n).out.filter Event.isImport = [Event.importOptions o.Options]) ∧
      (∀ n pre args post, (hook w f n).out = pre ++ Event.harnessMain args :: post →
        Event.importOptions o.Options ∈ pre) ∧
      ∀ n, ((hook w f n).out.filter Event.isUnmarshal).length ≤ 1 := by
    intro o ho hu
    obtain ⟨h2, h3, h4⟩ := hook_parse_ok w f hw ho hu
    have hk : (hook w f 4).pc = Pc.callMain := by rw [h4]
    have hlater : ∀ n, ∃ tail, (hook w f (n + 5)).out =
        [Event.unmarshal f.options, Event.importOptions o.Options] ++
          Event.harnessMain [f.loggingEndpoint, f.controlEndpoint] :: tail ∧
        ∀ ev ∈ tail, Event.isLate ev = true := by
      intro n
      obtain ⟨-, tail, hout, hlate⟩ := hook_after_callMain w f hk n
      refine ⟨tail, ?_, hlate⟩
      rw [Nat.add_comm n 5, hout, h4]
    refine ⟨fun n hn => ?_, fun n pre args post hout => ?_, fun n => ?_⟩
    · match n, hn with
      | 3, _ => simp [h3, List.filter_cons, Event.isImport]
      | 4, _ => simp [h4, List.filter_cons, Event.isImport]
      | n + 5, _ =>
        obtain ⟨tail, hout, hlate⟩ := hlater n
        obtain ⟨-, hi, -⟩ := filter_late_unmarshal hlate
        rw [hout]
        simp [List.filter_cons, Event.isImport, hi]
    · have hmem : Event.harnessMain args ∈ (hook w f n).out := by rw [hout]; simp
      match n with
      | 0 => simp [hook, Config.init] at hmem
      | 1 => simp [h1] at hmem
      | 2 => simp [h2] at hmem
      | 3 => simp [h3] at hmem
      | 4 => simp [h4] at hmem
      | n + 5 =>
        obtain ⟨tail, hout', -⟩ := hlater n
        rw [hout'] at hout
        rcases List.append_eq_append_iff.mp hout with ⟨a', ha, -⟩ | ⟨c', hc, hd⟩
        · rw [ha]; simp
        · cases c' with
          | nil =>
            have : pre = [Event.unmarshal f.options, Event.importOptions o.Options] := by
              simpa using hc.symm
            rw [this]; simp
          | cons x c'' =>
            have hx : x = Event.harnessMain args := by
              have := congrArg List.head? hd
              simp at this
              exact this.symm
            have : Event.harnessMain args ∈
                [Event.unmarshal f.options, Event.importOptions o.Options] := by
              rw [hc, hx]; simp
            simp at this
    · match n with
      | 0 => simp [hook, Config.init]
      | 1 => simp [h1]
      | 2 => simp [h2, List.filter_cons, Event.isUnmarshal]
      | 3 => simp [h3, List.filter_cons, Event.isUnmarshal]
      | 4 => simp [h4, List.filter_cons, Event.isUnmarshal]
      | n + 5 =>
        obtain ⟨tail, hout, hlate⟩ := hlater n
        obtain ⟨hu', -, -⟩ := filter_late_unmarshal hlate
        rw [hout]
        simp [List.filter_cons, Event.isUnmarshal, hu']
  refine ⟨fun n => ?_, fun o ho hu => ⟨(hok o ho hu).1, (hok o ho hu).2.1⟩,
    fun e ho hu n => ⟨(herror e ho hu n).1, (herror e ho hu n).2.1⟩, hempty⟩
  by_cases ho : f.options = ""
  · rw [(hempty ho n).2]; simp
  · cases hu : w.unmarshal f.options with
    | error e => exact (herror e ho hu n).2.2
    | ok o => exact (hok o ho hu).2.2 n

/-- Claim C4, instance: on the options "x", which parse, the trace after five
statements is the parse, the import of the parsed field and then the call of
harness.Main. -/
theorem hook_options_handled_once_before_main_witness :
    (exampleFlags "x").worker = true ∧
    (exampleFlags "x").options ≠ "" ∧
    exampleWorld.unmarshal (exampleFlags "x").options = Except.ok ⟨"x"⟩ ∧
    (hook exampleWorld (exampleFlags "x") 5).out =
      [Event.unmarshal "x", Event.importOptions "x"] ++
        Event.harnessMain ["logging:1", "control:2"] :: [] ∧
    ((hook exampleWorld (exampleFlags "x") 5).out.filter Event.isUnmarshal).length ≤ 1 ∧
    (hook exampleWorld (exampleFlags "x") 5).out.filter Event.isImport
      = [Event.importOptions "x"] ∧
    Event.importOptions "x" ∈ [Event.unmarshal "x", Event.importOptions "x"] :=
  have h := hook_options_handled_once_before_main exampleWorld (exampleFlags "x") rfl
  have hout : (hook exampleWorld (exampleFlags "x") 5).out =
      [Event.unmarshal "x", Event.importOptions "x"] ++
        Event.harnessMain ["logging:1", "control:2"] :: [] := by decide
  ⟨rfl, by decide, rfl, hout, h.1 5, (h.2.1 ⟨"x"⟩ (by decide) rfl).1 5 (by decide),
    (h.2.1 ⟨"x"⟩ (by decide) rfl).2 5 _ _ _ hout⟩

/-- In worker mode `hook` starts the harness unless the options text is
non-empty and does not parse: no flag is tested for being empty. -/
theorem hook_starts_harness_iff {ρ : Type} (w : World ρ) (f : Flags) (hw : f.worker = true) :
    (∃ n args, Event.harnessMain args ∈ (hook w f n).out) ↔
      (f.options = "" ∨ ∃ o, w.unmarshal f.options = Except.ok o) := by
  constructor
  · rintro ⟨n, args, h⟩
    by_cases ho : f.options = ""
    · exact Or.inl ho
    · right
      cases hu : w.unmarshal f.options with
      | ok o => exact ⟨o, rfl⟩
      | error e =>
        exfalso
        obtain ⟨h2, h3, h4⟩ := hook_parse_error w f hw ho hu
        match n with
        | 0 => simp [hook, Config.init] at h
        | 1 => simp [hook_one w f hw] at h
        | 2 => simp [h2] at h
        | 3 => simp [h3] at h
        | n + 4 => simp [h4] at h
  · rintro (ho | ⟨o, hu⟩)
    · obtain ⟨-, h3⟩ := hook_no_options w f hw ho
      refine ⟨4, [f.loggingEndpoint, f.controlEndpoint], ?_⟩
      have := hook_after_callMain w f (show (hook w f 3).pc = Pc.callMain by rw [h3]) 0
      obtain ⟨-, tail, hout, -⟩ := this
      rw [hout]; simp
    · by_cases ho : f.options = ""
      · obtain ⟨-, h3⟩ := hook_no_options w f hw ho
        refine ⟨4, [f.loggingEndpoint, f.controlEndpoint], ?_⟩
        have := hook_after_callMain w f (show (hook w f 3).pc = Pc.callMain by rw [h3]) 0
        obtain ⟨-, tail, hout, -⟩ := this
        rw [hout]; simp
      · obtain ⟨-, -, h4⟩ := hook_parse_ok w f hw ho hu
        refine ⟨5, [f.loggingEndpoint, f.controlEndpoint], ?_⟩
        have := hook_after_callMain w f (show (hook w f 4).pc = Pc.callMain by rw [h4]) 0
        obtain ⟨-, tail, hout, -⟩ := this
        rw [hout]; simp

/-- Claim C5: the code at failing inputs.  In worker mode with the
logging_endpoint, control_endpoint, persist_dir and options flags all empty,
hook makes, in every world, one call in its first four statements: the call of
harness.Main, with two empty endpoints.  The same holds in the example world
with exactly one of the four flags empty: an empty logging endpoint or an empty
control endpoint is passed on to harness.Main as it is, an empty persist_dir
changes nothing, and empty options skip the parse and the import.  So the
harness is started although a flag described as required is empty. -/
theorem hook_required_flags_failing_input :
    emptyFlags.worker = true ∧ emptyFlags.loggingEndpoint = "" ∧
    emptyFlags.controlEndpoint = "" ∧ emptyFlags.persistDir = "" ∧ emptyFlags.options = "" ∧
    (∀ w : World String, (hook w emptyFlags 4).out = [Event.harnessMain ["", ""]]) ∧
    (hook exampleWorld ⟨true, "", "control:2", "/tmp/persist", "x"⟩ 5).out =
      [Event.unmarshal "x", Event.importOptions "x", Event.harnessMain ["", "control:2"]] ∧
    (hook exampleWorld ⟨true, "logging:1", "", "/tmp/persist", "x"⟩ 5).out =
      [Event.unmarshal "x", Event.importOptions "x", Event.harnessMain ["logging:1", ""]] ∧
    (hook exampleWorld ⟨true, "logging:1", "control:2", "", "x"⟩ 5).out =
      [Event.unmarshal "x", Event.importOptions "x",
        Event.harnessMain ["logging:1", "control:2"]] ∧
    (hook exampleWorld ⟨true, "logging:1", "control:2", "/tmp/persist", ""⟩ 4).out =
      [Event.harnessMain ["logging:1", "control:2"]] := by
  refine ⟨rfl, rfl, rfl, rfl, rfl, fun w => ?_, by decide, by decide, by decide, by decide⟩
  obtain ⟨-, h3⟩ := hook_no_options w emptyFlags rfl rfl
  rw [hook_succ, h3]
  simp only [step]
  split <;> simp [emptyFlags]

/-- Claim C7: when the run reaches the call of harness.Main (which happens in
worker mode only) and the call returns no error, then two statements later hook
has just written "Worker exited successfully!" to stderr and is in its idle
loop; from then on every statement is a one-hour sleep, the configuration
otherwise unchanged; and at no point of the run has hook returned, exited the
process or let a panic out. -/
theorem hook_idles_after_success {ρ : Type} (w : World ρ) (f : Flags) (k : Nat)
    (hk : (hook w f k).pc = Pc.callMain)
    (hm : w.harnessMain (hook w f k).out [f.loggingEndpoint, f.controlEndpoint]
      = MainResult.ok) :
    f.worker = true ∧
    (∀ n, hook w f (k + 2 + n) = ⟨Pc.idle, true,
      (hook w f k).out ++ [Event.harnessMain [f.loggingEndpoint, f.controlEndpoint],
        Event.stderr "Worker exited successfully!"] ++ List.replicate n (Event.sleep 1)⟩) ∧
    ∀ n, (hook w f n).pc.terminal = false := by
  have hk' := hook_at_callMain w f hk
  obtain ⟨h1, h2⟩ := hook_main_ok w f hk' hm
  refine ⟨worker_of_callMain w f hk, h2, fun n => ?_⟩
  rcases Nat.lt_or_ge n (k + 2) with hlt | hge
  · rcases Nat.lt_or_ge n (k + 1) with hlt' | hge'
    · exact (hook_before_callMain w f hk (Nat.le_of_lt_succ hlt')).1
    · have : n = k + 1 := by omega
      rw [this, h1]; rfl
  · obtain ⟨m, rfl⟩ := Nat.exists_eq_add_of_le hge
    rw [h2]; rfl

/-- Claim C7, instance: without options the call of harness.Main is the
fourth statement, and it succeeds in the example world. -/
theorem hook_idles_after_success_witness :
    (hook exampleWorld (exampleFlags "") 3).pc = Pc.callMain ∧
    (exampleFlags "").worker = true ∧
    (∀ n, hook exampleWorld (exampleFlags "") (3 + 2 + n) = ⟨Pc.idle, true,
      (hook exampleWorld (exampleFlags "") 3).out ++
        [Event.harnessMain [(exampleFlags "").loggingEndpoint, (exampleFlags "").controlEndpoint],
        Event.stderr "Worker exited successfully!"] ++ List.replicate n (Event.sleep 1)⟩) ∧
    ∀ n, (hook exampleWorld (exampleFlags "") n).pc.terminal = false :=
  ⟨rfl, hook_idles_after_success exampleWorld (exampleFlags "") 3 rfl rfl⟩

/-- A panic of `harness.Main` with a value `r` that is not nil: the handler
takes over, `hook` writes "Worker panic: r" to stderr, dumps the stack and
terminates the process with status 2, five statements after the call and for
ever after.  No panic ever leaves `hook`, in any run. -/
theorem hook_panic_value_exits_two {ρ : Type} (w : World ρ) (f : Flags) (k : Nat) (r : String)
    (hk : (hook w f k).pc = Pc.callMain)
    (hm : w.harnessMain (hook w f k).out [f.loggingEndpoint, f.controlEndpoint]
      = MainResult.panic (some r)) :
    (∀ n, hook w f (k + 5 + n) = ⟨Pc.exited 2, true,
      (hook w f k).out ++ [Event.harnessMain [f.loggingEndpoint, f.controlEndpoint],
        Event.stderr ("Worker panic: " ++ r), Event.printStack]⟩) ∧
    ∀ (w' : World ρ) (f' : Flags) (n : Nat) (r' : Option String),
      (hook w' f' n).pc ≠ Pc.panicked r' := by
  have hk' := hook_at_callMain w f hk
  obtain ⟨-, -, -, -, h5⟩ := hook_main_panic w f hk' hm
  exact ⟨h5, fun w' f' n r' => (hook_deferred w' f' n).2 r'⟩

/-- A panic of `harness.Main` with the nil value: the handler finds
`recover()` nil, so `hook` writes nothing after the call, does not exit and
has returned to its caller two statements after the call. -/
theorem hook_panic_nil_returns {ρ : Type} (w : World ρ) (f : Flags) (k : Nat)
    (hk : (hook w f k).pc = Pc.callMain)
    (hm : w.harnessMain (hook w f k).out [f.loggingEndpoint, f.controlEndpoint]
      = MainResult.panic none) :
    ∀ n, hook w f (k + 2 + n) = ⟨Pc.returned, true,
      (hook w f k).out ++ [Event.harnessMain [f.loggingEndpoint, f.controlEndpoint]]⟩ :=
  (hook_main_nil_panic w f (hook_at_callMain w f hk) hm).2

/-- Claim C8: the code at the failing input.  In worker mode without options,
when harness.Main panics with the nil value (logging endpoint "nilpanic" in the
example world), the only call hook ever makes is the call of harness.Main:
nothing is written to stderr, the process is not terminated with status 2,
and from the fifth statement on hook has returned to its caller.  The same run
with a panic whose value is not nil (logging endpoint "boom") writes
"Worker panic: nil map" and ends with status 2. -/
theorem hook_nil_panic_is_silent :
    (loggingFlags "nilpanic").worker = true ∧
    (hook exampleWorld (loggingFlags "nilpanic") 3).pc = Pc.callMain ∧
    exampleWorld.harnessMain (hook exampleWorld (loggingFlags "nilpanic") 3).out
      ["nilpanic", "control:2"] = MainResult.panic none ∧
    (∀ n, hook exampleWorld (loggingFlags "nilpanic") (5 + n) = ⟨Pc.returned, true,
      [Event.harnessMain ["nilpanic", "control:2"]]⟩) ∧
    (∀ n msg, Event.stderr msg ∉ (hook exampleWorld (loggingFlags "nilpanic") n).out) ∧
    (∀ n, (hook exampleWorld (loggingFlags "nilpanic") n).pc ≠ Pc.exited 2) ∧
    hook exampleWorld (loggingFlags "boom") 8 = ⟨Pc.exited 2, true,
      [Event.harnessMain ["boom", "control:2"], Event.stderr "Worker panic: nil map",
        Event.printStack]⟩ := by
  have h5 : ∀ n, hook exampleWorld (loggingFlags "nilpanic") (5 + n) = ⟨Pc.returned, true,
      [Event.harnessMain ["nilpanic", "control:2"]]⟩ := by
    intro n
    rw [hook_of_terminal exampleWorld (loggingFlags "nilpanic") (k := 5) (by decide) n]
    decide
  have hall : ∀ n, (∀ msg, Event.stderr msg ∉ (hook exampleWorld (loggingFlags "nilpanic") n).out)
      ∧ (hook exampleWorld (loggingFlags "nilpanic") n).pc ≠ Pc.exited 2 := by
    intro n
    match n with
    | 0 => exact ⟨fun msg => by simp [show (hook exampleWorld (loggingFlags "nilpanic") 0).out
        = [] by decide], by decide⟩
    | 1 => exact ⟨fun msg => by simp [show (hook exampleWorld (loggingFlags "nilpanic") 1).out
        = [] by decide], by decide⟩
    | 2 => exact ⟨fun msg => by simp [show (hook exampleWorld (loggingFlags "nilpanic") 2).out
        = [] by decide], by decide⟩
    | 3 => exact ⟨fun msg => by simp [show (hook exampleWorld (loggingFlags "nilpanic") 3).out
        = [] by decide], by decide⟩
    | 4 => exact ⟨fun msg => by simp [show (hook exampleWorld (loggingFlags "nilpanic") 4).out
        = [Event.harnessMain ["nilpanic", "control:2"]] by decide], by decide⟩
    | n + 5 =>
      rw [Nat.add_comm n 5, h5 n]
      exact ⟨fun msg => by simp, by simp⟩
  exact ⟨rfl, by decide, by decide, h5, fun n msg => (hall n).1 msg, fun n => (hall n).2,
    by decide⟩

/-! ## Part 4: properties of `extractFn` -/

section Matcher

theorem inRanges_letter (c : Char) :
    inRanges [('a', 'z'), ('A', 'Z')] c = isAsciiLetter c := by
  simp [inRanges, isAsciiLetter]

theorem inRanges_lower (c : Char) : inRanges [('a', 'z')] c = isAsciiLower c := by
  simp [inRanges, isAsciiLower]

/-- The iteration of a class finds nothing where the input does not start with
a rune of the class. -/
theorem plusLoop_cls_nil (rs : List (Char × Char)) (n : Nat) (s : List Char)
    (h : ∀ c t, s = c :: t → inRanges rs c = false) :
    plusLoop (Regex.run (Regex.cls rs)) n s = [] := by
  cases n with
  | zero => rfl
  | succ n =>
    cases s with
    | nil => simp [plusLoop, Regex.run]
    | cons c t => simp [plusLoop, Regex.run, h c t rfl]

/-- The iteration of a class first finds the maximal run of runes of the
class. -/
theorem plusLoop_cls_head (rs : List (Char × Char)) (n : Nat) (c : Char) (t : List Char)
    (hc : inRanges rs c = true) (hn : (c :: t).length < n) :
    (plusLoop (Regex.run (Regex.cls rs)) n (c :: t)).head? =
      some (t.dropWhile (inRanges rs)) := by
  induction n generalizing c t with
  | zero => omega
  | succ n ih =>
    have hstep : plusLoop (Regex.run (Regex.cls rs)) (n + 1) (c :: t) =
        plusLoop (Regex.run (Regex.cls rs)) n t ++ [t] := by
      simp [plusLoop, Regex.run, hc]
    rw [hstep]
    cases t with
    | nil => rw [plusLoop_cls_nil rs n [] (by simp)]; rfl
    | cons c' t' =>
      cases hc' : inRanges rs c' with
      | false =>
        rw [plusLoop_cls_nil rs n (c' :: t') (by intro a b hab; cases hab; exact hc')]
        simp [List.dropWhile, hc']
      | true =>
        have := ih c' t' hc' (by simp at hn ⊢; omega)
        rw [List.head?_append, this]
        simp [List.dropWhile, hc']

end Matcher

section WordRE

/-- The optional group of the pattern, `('[a-z])?`: its first match. -/
theorem run_suffix_head (s : List Char) :
    (Regex.run (Regex.quest (Regex.group
        (Regex.cat (Regex.lit '\'') (Regex.cls [('a', 'z')])))) s).head? =
      some (match s with
        | a :: l :: rest => if a = '\'' ∧ isAsciiLower l = true then rest else a :: l :: rest
        | rest => rest) := by
  match s with
  | [] => simp [Regex.run]
  | [a] => by_cases ha : a = '\'' <;> simp [Regex.run, ha]
  | a :: l :: rest =>
    by_cases ha : a = '\''
    · cases hl : isAsciiLower l <;> simp [Regex.run, ha, inRanges_lower, hl]
    · simp [Regex.run, ha]

/-- The input left after the word `takeWord` finds. -/
theorem takeWord_snd (u : List Char) :
    (takeWord u).2 = (match u.dropWhile isAsciiLetter with
        | a :: l :: rest => if a = '\'' ∧ isAsciiLower l = true then rest else a :: l :: rest
        | rest => rest) := by
  unfold takeWord
  split
  · split <;> rfl
  · rfl

/-- The word and the input left after it make up the input. -/
theorem takeWord_append (u : List Char) : (takeWord u).1 ++ (takeWord u).2 = u := by
  unfold takeWord
  split
  · rename_i a l rest heq
    split
    · simp only [List.append_assoc, List.cons_append, List.nil_append]
      rw [← heq, List.takeWhile_append_dropWhile]
    · simp only
      rw [← heq, List.takeWhile_append_dropWhile]
  · simp only
    rw [List.takeWhile_append_dropWhile]

/-- A word is not empty. -/
theorem takeWord_fst_ne_nil (c : Char) (t : List Char) (hc : isAsciiLetter c = true) :
    (takeWord (c :: t)).1 ≠ [] := by
  unfold takeWord
  split
  · split <;> simp [List.takeWhile, hc]
  · simp [List.takeWhile, hc]

/-- The pattern of `wordRE` at the start of the input: no match when the input
does not start with an ASCII letter, and else the first match in backtracking
order leaves the input that `takeWord` leaves. -/
theorem run_wordRE_head (s : List Char) :
    (Regex.run wordRE s).head? =
      match s with
      | c :: t => if isAsciiLetter c = true then some (takeWord (c :: t)).2 else none
      | [] => none := by
  have hfun : inRanges [('a', 'z'), ('A', 'Z')] = isAsciiLetter := funext inRanges_letter
  match s with
  | [] => simp [wordRE, Regex.run, plusLoop]
  | c :: t =>
    cases hc : isAsciiLetter c with
    | false =>
      have : Regex.run (Regex.plus (Regex.cls [('a', 'z'), ('A', 'Z')])) (c :: t) = [] :=
        plusLoop_cls_nil _ _ _ (by intro a b hab; cases hab; rw [inRanges_letter]; exact hc)
      simp only [wordRE]
      rw [Regex.run, this]
      simp [hc]
    | true =>
      have hhead := plusLoop_cls_head [('a', 'z'), ('A', 'Z')] ((c :: t).length + 1) c t
        (by rw [inRanges_letter]; exact hc) (Nat.lt_succ_self _)
      rw [hfun] at hhead
      have hrun : Regex.run (Regex.plus (Regex.cls [('a', 'z'), ('A', 'Z')])) (c :: t) =
          plusLoop (Regex.run (Regex.cls [('a', 'z'), ('A', 'Z')])) ((c :: t).length + 1)
            (c :: t) := by
        rw [Regex.run]
      obtain ⟨l', hl'⟩ : ∃ l', Regex.run (Regex.plus (Regex.cls [('a', 'z'), ('A', 'Z')]))
          (c :: t) = t.dropWhile isAsciiLetter :: l' := by
        rw [hrun]
        cases hp : plusLoop (Regex.run (Regex.cls [('a', 'z'), ('A', 'Z')]))
            ((c :: t).length + 1) (c :: t) with
        | nil => rw [hp] at hhead; simp at hhead
        | cons x l' => rw [hp] at hhead; simp at hhead; exact ⟨l', by rw [hhead]⟩
      simp only [wordRE]
      rw [Regex.run, hl', List.flatMap_cons, List.head?_append, run_suffix_head, takeWord_snd]
      simp [List.dropWhile, hc]

end WordRE

section FindAll

/-- Where `dropWhile` stops, the test fails. -/
theorem dropWhile_cons_head {p : Char → Bool} {l : List Char} {c : Char} {u : List Char}
    (h : l.dropWhile p = c :: u) : p c = false := by
  induction l with
  | nil => simp at h
  | cons a l ih =>
    cases ha : p a with
    | true => rw [List.dropWhile_cons_of_pos ha] at h; exact ih h
    | false =>
      rw [List.dropWhile_cons_of_neg (by simp [ha])] at h
      cases h
      exact ha

/-- Past the end of the input the pattern of `wordRE` is not found. -/
theorem searchFrom_wordRE_none (s : List Char) (k pos : Nat) (h : s.length ≤ pos) :
    searchFrom wordRE s k pos = none := by
  induction k generalizing pos with
  | zero => rfl
  | succ k ih =>
    rw [searchFrom, List.drop_eq_nil_of_le h, run_wordRE_head]
    exact ih (pos + 1) (Nat.le_succ_of_le h)

/-- The search for the pattern of `wordRE` from a position: it skips the runes
that are not ASCII letters and finds the word that `takeWord` takes. -/
theorem searchFrom_wordRE (s p t : List Char) (hs : s = p ++ t) (k : Nat)
    (hk : t.length < k) :
    searchFrom wordRE s k p.length =
      match t.dropWhile fun c => !isAsciiLetter c with
      | [] => none
      | c :: u =>
          some (p.length + (t.takeWhile fun c => !isAsciiLetter c).length,
            p.length + (t.takeWhile fun c => !isAsciiLetter c).length
              + (takeWord (c :: u)).1.length) := by
  induction t generalizing p k with
  | nil =>
    simp only [List.dropWhile_nil]
    exact searchFrom_wordRE_none s k p.length (by simp [hs])
  | cons c t ih =>
    obtain ⟨k, rfl⟩ : ∃ k', k = k' + 1 := ⟨k - 1, by omega⟩
    have hdrop : s.drop p.length = c :: t := by rw [hs, List.drop_left]
    rw [searchFrom, hdrop, run_wordRE_head]
    cases hc : isAsciiLetter c with
    | true =>
      have hlen := congrArg List.length (takeWord_append (c :: t))
      simp only [List.length_append, List.length_cons] at hlen
      have hslen : s.length = p.length + (t.length + 1) := by simp [hs]
      simp [List.dropWhile, List.takeWhile, hc]
      omega
    | false =>
      have := ih (p ++ [c]) (by simp [hs]) k (by simp at hk; omega)
      simp only [List.length_append, List.length_singleton] at this
      simp only [hc, Bool.false_eq_true, if_false]
      rw [this]
      simp only [List.dropWhile, List.takeWhile, hc, Bool.not_false, List.length_cons]
      split
      · simp
      · simp; omega

/-- The loop of `allMatches` on the pattern of `wordRE` ends where no ASCII
letter is left. -/
theorem allMatchesLoop_wordRE_done (s : List Char) (n fuel : Nat) (p t : List Char) (i : Nat)
    (prev : Int) (hs : s = p ++ t) (hd : t.dropWhile (fun c => !isAsciiLetter c) = []) :
    allMatchesLoop wordRE s n fuel i p.length prev = [] := by
  cases fuel with
  | zero => rfl
  | succ fuel =>
    have hslen : s.length = p.length + t.length := by simp [hs]
    have hsearch := searchFrom_wordRE s p t hs (s.length + 1 - p.length) (by omega)
    rw [hd] at hsearch
    rw [allMatchesLoop]
    split
    · rw [doExecute, hsearch]
    · rfl

/-- One turn of the loop of `allMatches` on the pattern of `wordRE`: the runes
that are not ASCII letters are skipped, the word that `takeWord` takes there is
delivered, and the next search starts at the end of that word. -/
theorem allMatchesLoop_wordRE_turn (s : List Char) (n fuel : Nat) (p t : List Char) (i : Nat)
    (prev : Int) (hs : s = p ++ t) (hi : i < n) {c : Char} {u : List Char}
    (hd : t.dropWhile (fun c => !isAsciiLetter c) = c :: u) :
    allMatchesLoop wordRE s n (fuel + 1) i p.length prev =
      (p.length + (t.takeWhile fun c => !isAsciiLetter c).length,
        p.length + (t.takeWhile fun c => !isAsciiLetter c).length
          + (takeWord (c :: u)).1.length) ::
      allMatchesLoop wordRE s n fuel (i + 1)
        (p.length + (t.takeWhile fun c => !isAsciiLetter c).length
          + (takeWord (c :: u)).1.length)
        ((p.length + (t.takeWhile fun c => !isAsciiLetter c).length
          + (takeWord (c :: u)).1.length : Nat) : Int) := by
  have hslen : s.length = p.length + t.length := by simp [hs]
  have hcond : i < n ∧ p.length ≤ s.length := by omega
  have hsearch := searchFrom_wordRE s p t hs (s.length + 1 - p.length) (by omega)
  rw [hd] at hsearch
  have hc : isAsciiLetter c = true := by simpa using dropWhile_cons_head hd
  have hwlen : 0 < (takeWord (c :: u)).1.length :=
    List.length_pos.mpr (takeWord_fst_ne_nil c u hc)
  have hne : ¬ (p.length + (t.takeWhile fun c => !isAsciiLetter c).length
      + (takeWord (c :: u)).1.length = p.length) := by omega
  rw [allMatchesLoop, if_pos hcond, doExecute, hsearch]
  simp only [hne, decide_False, Bool.false_and, Bool.not_false, if_true, if_false]

/-- The input split at a word: the runes skipped, the word, the input left. -/
theorem split_at_word (t : List Char) {c : Char} {u : List Char}
    (hd : t.dropWhile (fun c => !isAsciiLetter c) = c :: u) :
    t = (t.takeWhile fun c => !isAsciiLetter c) ++ (takeWord (c :: u)).1
      ++ (takeWord (c :: u)).2 := by
  rw [List.append_assoc, takeWord_append, ← hd, List.takeWhile_append_dropWhile]

/-- The loop of `allMatches` on the pattern of `wordRE`, started at a position,
delivers the slices the reference scanner emits on the rest of the line. -/
theorem allMatchesLoop_wordRE (s : List Char) (n : Nat) (hn : s.length < n) (fuel : Nat) :
    ∀ (fuel' : Nat) (p t : List Char) (i : Nat) (prev : Int), s = p ++ t →
      t.length ≤ fuel → t.length ≤ fuel' → i ≤ p.length →
      (allMatchesLoop wordRE s n fuel i p.length prev).map
          (fun m => slice s m.1 m.2) = scanWords fuel' t := by
  induction fuel with
  | zero =>
    intro fuel' p t i prev _ ht _ _
    have : t = [] := List.eq_nil_of_length_eq_zero (Nat.le_zero.mp ht)
    subst this
    cases fuel' <;> simp [allMatchesLoop, scanWords]
  | succ fuel ih =>
    intro fuel' p t i prev hs ht ht' hi
    have hslen : s.length = p.length + t.length := by simp [hs]
    cases hd : t.dropWhile (fun c => !isAsciiLetter c) with
    | nil =>
      rw [allMatchesLoop_wordRE_done s n _ p t i prev hs hd]
      cases fuel' with
      | zero => simp [scanWords]
      | succ fuel' => simp [scanWords, hd]
    | cons c u =>
      have hc : isAsciiLetter c = true := by simpa using dropWhile_cons_head hd
      have hwlen : 0 < (takeWord (c :: u)).1.length :=
        List.length_pos.mpr (takeWord_fst_ne_nil c u hc)
      have hsplit := split_at_word t hd
      have htlen := congrArg List.length hsplit
      simp only [List.length_append] at htlen
      obtain ⟨fuel', rfl⟩ : ∃ f, fuel' = f + 1 := ⟨fuel' - 1, by omega⟩
      have hs' : s = (p ++ (t.takeWhile fun c => !isAsciiLetter c) ++ (takeWord (c :: u)).1)
          ++ (takeWord (c :: u)).2 := by
        conv_lhs => rw [hs, hsplit]
        simp only [List.append_assoc]
      have hrec := ih fuel' (p ++ (t.takeWhile fun c => !isAsciiLetter c) ++ (takeWord (c :: u)).1)
        (takeWord (c :: u)).2 (i + 1)
        ((p.length + (t.takeWhile fun c => !isAsciiLetter c).length
          + (takeWord (c :: u)).1.length : Nat) : Int) hs' (by omega) (by omega)
        (by simp only [List.length_append]; omega)
      simp only [List.length_append] at hrec
      have hslice : slice s (p.length + (t.takeWhile fun c => !isAsciiLetter c).length)
          (p.length + (t.takeWhile fun c => !isAsciiLetter c).length
            + (takeWord (c :: u)).1.length) = (takeWord (c :: u)).1 := by
        unfold slice
        have h1 : s = (p ++ (t.takeWhile fun c => !isAsciiLetter c))
            ++ ((takeWord (c :: u)).1 ++ (takeWord (c :: u)).2) := by
          rw [hs']; simp
        conv_lhs => rw [h1]
        rw [List.drop_left' (by simp), Nat.add_sub_cancel_left, List.take_left]
      rw [allMatchesLoop_wordRE_turn s n fuel p t i prev hs (by omega) hd]
      simp only [List.map_cons, hslice, hrec, scanWords, hd]

/-- The matches the loop of `allMatches` delivers for the pattern of `wordRE`
lie at or after the start position and inside the line, none is empty, and
each starts at or after the end of those delivered before it. -/
theorem allMatchesLoop_wordRE_positions (s : List Char) (n : Nat) (fuel : Nat) :
    ∀ (p t : List Char) (i : Nat) (prev : Int), s = p ++ t →
      (∀ m ∈ allMatchesLoop wordRE s n fuel i p.length prev,
        p.length ≤ m.1 ∧ m.1 < m.2 ∧ m.2 ≤ s.length) ∧
      (allMatchesLoop wordRE s n fuel i p.length prev).Pairwise fun m m' => m.2 ≤ m'.1 := by
  induction fuel with
  | zero => intro p t i prev _; simp [allMatchesLoop]
  | succ fuel ih =>
    intro p t i prev hs
    have hslen : s.length = p.length + t.length := by simp [hs]
    by_cases hi : i < n
    · cases hd : t.dropWhile (fun c => !isAsciiLetter c) with
      | nil => rw [allMatchesLoop_wordRE_done s n _ p t i prev hs hd]; simp
      | cons c u =>
        have hc : isAsciiLetter c = true := by simpa using dropWhile_cons_head hd
        have hwlen : 0 < (takeWord (c :: u)).1.length :=
          List.length_pos.mpr (takeWord_fst_ne_nil c u hc)
        have hsplit := split_at_word t hd
        have htlen := congrArg List.length hsplit
        simp only [List.length_append] at htlen
        have hs' : s = (p ++ (t.takeWhile fun c => !isAsciiLetter c) ++ (takeWord (c :: u)).1)
            ++ (takeWord (c :: u)).2 := by
          conv_lhs => rw [hs, hsplit]
          simp only [List.append_assoc]
        have hrec := ih (p ++ (t.takeWhile fun c => !isAsciiLetter c) ++ (takeWord (c :: u)).1)
          (takeWord (c :: u)).2 (i + 1)
          ((p.length + (t.takeWhile fun c => !isAsciiLetter c).length
            + (takeWord (c :: u)).1.length : Nat) : Int) hs'
        simp only [List.length_append] at hrec
        rw [allMatchesLoop_wordRE_turn s n fuel p t i prev hs hi hd]
        refine ⟨fun m hm => ?_, List.pairwise_cons.mpr ⟨fun m' hm' => ?_, hrec.2⟩⟩
        · rcases List.mem_cons.mp hm with h | h
          · subst h
            simp only
            omega
          · have := hrec.1 m h
            omega
        · exact (hrec.1 m' hm').1
    · rw [allMatchesLoop, if_neg (fun h => hi h.1)]
      simp

end FindAll

section ExtractFn

/-- A string has at least as many bytes as runes. -/
theorem length_le_utf8Len (cs : List Char) : cs.length ≤ String.utf8Len cs := by
  induction cs with
  | nil => simp
  | cons c cs ih =>
    have := Char.utf8Size_pos c
    simp only [List.length_cons, String.utf8Len_cons]
    omega

/-- The bound of the reference scanner does not cut it short: any bound from
the length of the input on gives the same words. -/
theorem scanWords_fuel (fuel : Nat) (t : List Char) (h : t.length ≤ fuel) :
    scanWords fuel t = scanWords t.length t := by
  have h1 := allMatchesLoop_wordRE t (t.length + 1) (Nat.lt_succ_self _) t.length fuel [] t
    0 (-1) rfl (Nat.le_refl _) h (Nat.le_refl _)
  have h2 := allMatchesLoop_wordRE t (t.length + 1) (Nat.lt_succ_self _) t.length t.length [] t
    0 (-1) rfl (Nat.le_refl _) (Nat.le_refl _) (Nat.le_refl _)
  rw [← h1, ← h2]

/-- The words `FindAllString` finds for `wordRE` are those of the reference
scanner. -/
theorem findAllString_wordRE (line : String) :
    FindAllString wordRE line = referenceScanner line := by
  unfold FindAllString referenceScanner allMatches
  have hn : line.data.length < line.utf8ByteSize + 1 :=
    Nat.lt_succ_of_le (length_le_utf8Len line.data)
  have := allMatchesLoop_wordRE line.data (line.utf8ByteSize + 1) hn (line.data.length + 2)
    line.data.length [] line.data 0 (-1) rfl (by omega) (Nat.le_refl _) (Nat.le_refl _)
  rw [← this, List.map_map]
  rfl

/-- Threading a list through an appending `emit` collects the list. -/
theorem foldl_append_singleton (l init : List String) :
    l.foldl (fun acc word => acc ++ [word]) init = init ++ l := by
  induction l generalizing init with
  | nil => simp
  | cons a l ih => simp [ih]

/-- Every word of the reference scanner is non-empty. -/
theorem scanWords_ne_nil (fuel : Nat) (s : List Char) : ∀ w ∈ scanWords fuel s, w ≠ [] := by
  induction fuel generalizing s with
  | zero => simp [scanWords]
  | succ fuel ih =>
    intro w hw
    rw [scanWords] at hw
    split at hw
    · simp at hw
    · rename_i c t hd
      have hc : isAsciiLetter c = true := by simpa using dropWhile_cons_head hd
      rcases List.mem_cons.mp hw with h | h
      · rw [h]; exact takeWord_fst_ne_nil c t hc
      · exact ih _ w h

/-- On input without ASCII letters the reference scanner emits nothing. -/
theorem scanWords_no_letter (fuel : Nat) (s : List Char)
    (h : ∀ c ∈ s, isAsciiLetter c = false) : scanWords fuel s = [] := by
  cases fuel with
  | zero => rfl
  | succ fuel =>
    have : s.dropWhile (fun c => !isAsciiLetter c) = [] := by
      rw [List.dropWhile_eq_nil_iff]
      intro c hc
      simp [h c hc]
    rw [scanWords, this]

end ExtractFn

/-! ### The claim on `extractFn` -/

/-- Claim C6: on every line and for every `emit`, extractFn calls `emit` once
for each successive match of the pattern found by `FindAllString`, from left to
right, which is once for each word of the reference scanner, in the same order,
and nothing else; the matches are non-empty, lie inside the line and do not
overlap, each starting at or after the end of the one before; so the words
emitted are those of the reference scanner
(whose bound on the number of words never cuts it short).
Every emitted word is non-empty, a line without ASCII letters emits nothing,
"don'ts" emits "don't" then "s", and "O'Brien" emits "O" then "Brien". -/
theorem extractFn_emits_reference_words (line : String) :
    (∀ (σ : Type) (emit : String → σ → σ) (st : σ),
      extractFn line emit st = (FindAllString wordRE line).foldl (fun acc w => emit w acc) st ∧
      extractFn line emit st = (referenceScanner line).foldl (fun acc w => emit w acc) st) ∧
    ((∀ m ∈ allMatches wordRE line.data (line.utf8ByteSize + 1),
        m.1 < m.2 ∧ m.2 ≤ line.data.length) ∧
      (allMatches wordRE line.data (line.utf8ByteSize + 1)).Pairwise fun m m' => m.2 ≤ m'.1) ∧
    emitted line = referenceScanner line ∧
    (∀ fuel, line.data.length ≤ fuel →
      (scanWords fuel line.data).map String.mk = referenceScanner line) ∧
    (∀ word ∈ emitted line, word ≠ "") ∧
    ((∀ c ∈ line.data, isAsciiLetter c = false) → emitted line = []) ∧
    emitted "don'ts" = ["don't", "s"] ∧
    emitted "O'Brien" = ["O", "Brien"] := by
  have hem : emitted line = referenceScanner line := by
    unfold emitted extractFn
    rw [foldl_append_singleton, List.nil_append, findAllString_wordRE]
  have hpos := allMatchesLoop_wordRE_positions line.data (line.utf8ByteSize + 1)
    (line.data.length + 2) [] line.data 0 (-1) rfl
  refine ⟨fun σ emit st => ⟨rfl, ?_⟩, ⟨fun m hm => (hpos.1 m hm).2, hpos.2⟩, hem,
    fun fuel hfuel => ?_, ?_, ?_, by decide, by decide⟩
  · unfold extractFn
    rw [findAllString_wordRE]
  · unfold referenceScanner
    rw [scanWords_fuel fuel line.data hfuel]
  · intro word hw
    rw [hem] at hw
    unfold referenceScanner at hw
    obtain ⟨cs, hcs, rfl⟩ := List.mem_map.mp hw
    have := scanWords_ne_nil _ _ cs hcs
    intro hempty
    apply this
    have := congrArg String.data hempty
    simpa using this
  · intro h
    rw [hem]
    unfold referenceScanner
    rw [scanWords_no_letter _ _ h]
    rfl

/-- Claim C6, instance: a line of digits, blanks and an accented letter holds
no ASCII letter and emits nothing. -/
theorem extractFn_emits_reference_words_witness :
    (∀ c ∈ "12 é 34".data, isAsciiLetter c = false) ∧ emitted "12 é 34" = [] :=
  ⟨by decide,
    (extractFn_emits_reference_words "12 é 34").2.2.2.2.2.1 (by decide)⟩

end Beam
